import Mathlib

/-!
# kube-aws-node-labeler: tag translation and the tag loop of `onAdd`

A shallow embedding of `cmd/aws-node-labeler/main.go`:

* `isManagable`, `splitEC2Tag`, `getTaintFromAWSTag`, `InstanceIDFromProviderID`
  are translated function by function;
* the `for _, t := range instance.Tags` loop of `labeler.onAdd` (lines 143-164)
  is `tagStep` / `tagLoop`, and lines 138-166 (the loop between the two length
  snapshots and the `if` that decides on the update) are `onAddPass`.

Conventions of the embedding.

* A Go `string` is a `List Char`.  Every separator and every pattern used by the
  program is ASCII, so splitting and searching by code point agrees with Go's
  byte-wise behaviour on UTF-8 text.
* A Go function returning `(x, error)` returns a pair whose second component is
  `Option GoError` (`none` is the `nil` error); a `nil` slice is `[]`.
* A run-time panic (index out of range) is `none` in an outer `Option`.
* A Go `map[string]string` is an association list read and written through
  `mapGet` / `mapSet`; `mapSet` overwrites in place or appends, so the number of
  entries is the list length.  The map reaching the tag loop is never the `nil`
  map: line 122 found the region label in it.
-/

namespace Labeler

/-! ## Strings -/

/-- Go strings. -/
abbrev Str := List Char

/-- Go `error` values built by `fmt.Errorf` with a constant message. -/
structure GoError where
  msg : String
  deriving DecidableEq, Repr

/-- The library call `strings.Split(s, sep)` for a one-character separator:
the pieces of `s` between consecutive separators; always at least one piece. -/
def split (sep : Char) : Str → List Str
  | [] => [[]]
  | c :: cs =>
    if c = sep then [] :: split sep cs
    else match split sep cs with
      | [] => [[c]]
      | seg :: rest => (c :: seg) :: rest

/-- The library call `strings.Join(xs, sep)`. -/
def join (sep : Str) : List Str → Str
  | [] => []
  | [x] => x
  | x :: y :: rest => x ++ sep ++ join sep (y :: rest)

/-- The library call `strings.HasPrefix(s, p)`. -/
def hasPrefix : Str → Str → Bool
  | _, [] => true
  | [], _ :: _ => false
  | c :: cs, p :: ps => decide (c = p) && hasPrefix cs ps

/-- The library call `strings.Contains(s, sub)`: `sub` occurs somewhere in `s`. -/
def contains : Str → Str → Bool
  | [], sub => hasPrefix [] sub
  | c :: cs, sub => hasPrefix (c :: cs) sub || contains cs sub

/-- Indexing `xs[i]` of a Go slice; `none` is the index-out-of-range panic. -/
def goIndex (xs : List Str) (i : Nat) : Option Str := xs.get? i

/-! ## Constants (lines 25-35) -/

def K8S_LABEL_AWS_REGION : Str := "failure-domain.beta.kubernetes.io/region".toList

def K8S_LABEL_PREFIX : Str := "awslabeler.com".toList

def AWS_LABEL_PREFIX : Str := "kubernetes/aws-labeler".toList

def AWS_LABEL_K8S_LABEL : Str := AWS_LABEL_PREFIX ++ "/label".toList

def AWS_LABEL_K8S_TAINT : Str := AWS_LABEL_PREFIX ++ "/taint".toList

/-! ## Data -/

/-- The type `v1.TaintEffect`; `unset` is the empty effect of the zero `v1.Taint{}`. -/
inductive TaintEffect where
  | unset
  | NoSchedule
  | PreferNoSchedule
  | NoExecute
  deriving DecidableEq, Repr

/-- The type `v1.Taint` (the `TimeAdded` pointer is never set by this program). -/
structure Taint where
  key : Str
  value : Str
  effect : TaintEffect
  deriving DecidableEq, Repr

/-- The zero value `v1.Taint{}`. -/
def Taint.zero : Taint := ⟨[], [], TaintEffect.unset⟩

/-- The type `ec2.Tag`, with both pointers set (as the EC2 API returns them). -/
structure Tag where
  key : Str
  value : Str
  deriving DecidableEq, Repr

/-- A non-nil `map[string]string`. -/
abbrev Labels := List (Str × Str)

/-- The keys of a map. -/
def mapKeys (m : Labels) : List Str := m.map Prod.fst

/-- The lookup `m[k]` in its two-valued form. -/
def mapGet : Labels → Str → Option Str
  | [], _ => none
  | (k', v') :: m, k => if k' = k then some v' else mapGet m k

/-- The assignment `m[k] = v`. -/
def mapSet : Labels → Str → Str → Labels
  | [], k, v => [(k, v)]
  | (k', v') :: m, k, v => if k' = k then (k', v) :: m else (k', v') :: mapSet m k v

/-- The builtin `len(m)`. -/
def mapLen (m : Labels) : Nat := m.length

/-! ## The functions of `main.go` -/

/-- Lines 75-77. -/
def isManagable (i : Str) : Bool := contains i AWS_LABEL_PREFIX

/-- Lines 80-86. -/
def splitEC2Tag (i : Str) : List Str × Option GoError :=
  let res := split '/' i
  if res.length ≠ 4 then
    ([], some ⟨"wrong format for a tag."⟩)
  else
    (res, none)

/-- Lines 90-109.  The outer `none` is the panic of `res[3]` on a short slice. -/
def getTaintFromAWSTag (res : List Str) (tagValue : Str) : Option (Taint × Option GoError) :=
  let value := split ':' tagValue
  if h : value.length ≠ 2 then
    some (Taint.zero,
      some ⟨"wrong format for a tail's value. It shoud be like: labelValue:Effect"⟩)
  else
    let effect : TaintEffect :=
      if value.get ⟨1, by omega⟩ = "PreferNoSchedule".toList then TaintEffect.PreferNoSchedule
      else if value.get ⟨1, by omega⟩ = "NoExecute".toList then TaintEffect.NoExecute
      else TaintEffect.NoSchedule
    (goIndex res 3).map fun r3 =>
      ({ key := K8S_LABEL_PREFIX ++ "/".toList ++ r3
         value := value.get ⟨0, by omega⟩
         effect := effect }, none)

/-- Lines 190-196. -/
def InstanceIDFromProviderID (i : Str) : Str × Option GoError :=
  let s := split '/' i
  if h : s.length ≠ 5 then
    ([], some ⟨"Expected 5 parts after a split"⟩)
  else
    (s.get ⟨4, by omega⟩, none)

/-- The variables `ll` and `taints` of `onAdd` that the tag loop updates. -/
structure LoopState where
  ll : Labels
  taints : List Taint
  deriving DecidableEq, Repr

/-- The body of the loop, lines 144-163, for one tag.  `continue` ends the body
with the state reached so far; `none` is a panic of `res[3]`. -/
def tagStep (st : LoopState) (t : Tag) : Option LoopState :=
  if isManagable t.key = false then some st
  else
    match splitEC2Tag t.key with
    | (_, some _) => some st
    | (res, none) =>
      let afterLabel : Option Labels :=
        if contains t.key AWS_LABEL_K8S_LABEL then
          (goIndex res 3).map fun r3 =>
            mapSet st.ll (K8S_LABEL_PREFIX ++ "/".toList ++ r3) t.value
        else some st.ll
      afterLabel.bind fun ll =>
        if contains t.key AWS_LABEL_K8S_TAINT then
          (getTaintFromAWSTag res t.value).map fun out =>
            match out with
            | (_, some _) => { ll := ll, taints := st.taints }
            | (taint, none) => { ll := ll, taints := st.taints ++ [taint] }
        else some { ll := ll, taints := st.taints }

/-- The loop of lines 143-164 over `instance.Tags`. -/
def tagLoop : LoopState → List Tag → Option LoopState
  | st, [] => some st
  | st, t :: ts => (tagStep st t).bind fun st' => tagLoop st' ts

/-- What lines 138-166 compute: the final `ll` and `taints`, and the condition
of line 166 that triggers the update of the node. -/
structure Pass where
  labels : Labels
  taints : List Taint
  changed : Bool
  deriving DecidableEq, Repr

/-- Lines 138-166 of `onAdd`: the lengths are recorded, the loop runs, and the
lengths are compared. -/
def onAddPass (labels : Labels) (nodeTaints : List Taint) (tags : List Tag) : Option Pass :=
  let ll := labels
  let taints := nodeTaints
  let cll := mapLen labels
  let cTaints := taints.length
  (tagLoop { ll := ll, taints := taints } tags).map fun st =>
    { labels := st.ll
      taints := st.taints
      changed := decide (cll ≠ mapLen st.ll) || decide (cTaints ≠ st.taints.length) }

/-! ## Vocabulary of the claims -/

/-- The key is managed and `splitEC2Tag` accepts it: the tag reaches line 153. -/
def keyAccepted (k : Str) : Bool := isManagable k && (splitEC2Tag k).2.isNone

/-- The output key `K8S_LABEL_PREFIX + "/" + res[3]` of a tag whose key has four
segments. -/
def outKey (t : Tag) : Str :=
  K8S_LABEL_PREFIX ++ "/".toList ++ (split '/' t.key).getD 3 []

/-- An accepted label tag: the tag reaches the assignment of line 154. -/
def isLabelTag (t : Tag) : Bool :=
  keyAccepted t.key && contains t.key AWS_LABEL_K8S_LABEL

/-- A taint tag: the tag reaches the call of line 157. -/
def isTaintTag (t : Tag) : Bool :=
  keyAccepted t.key && contains t.key AWS_LABEL_K8S_TAINT

/-- The taint of an accepted taint tag (the tag reaches the `append` of line
162), `none` for every other tag. -/
def taintOf (t : Tag) : Option Taint :=
  if isTaintTag t then
    match getTaintFromAWSTag (splitEC2Tag t.key).1 t.value with
    | some (taint, none) => some taint
    | _ => none
  else none

/-- The map assignment an accepted label tag performs, `none` for every other tag. -/
def labelWrite (t : Tag) : Option (Str × Str) :=
  if isLabelTag t then some (outKey t, t.value) else none

/-- All the assignments of a list of writes, in order. -/
def applyWrites (m : Labels) (ws : List (Str × Str)) : Labels :=
  ws.foldl (fun acc w => mapSet acc w.1 w.2) m

/-! ## Reference behaviour, in the words of the specification -/

/-- The effect an effect token stands for: the two recognised tokens, and
`NoSchedule` for every other one. -/
def effectOfToken (token : Str) : TaintEffect :=
  if token = "PreferNoSchedule".toList then TaintEffect.PreferNoSchedule
  else if token = "NoExecute".toList then TaintEffect.NoExecute
  else TaintEffect.NoSchedule

/-- The reference for `getTaintFromAWSTag`: no taint unless the value holds
exactly one colon; otherwise the key is the output prefix followed by segment 3,
the value is the text before the colon and the effect is read from the text
after it. -/
def taintReference (res : List Str) (v : Str) : Option Taint :=
  if v.count ':' = 1 then
    some
      { key := "awslabeler.com/".toList ++ res.getD 3 []
        value := v.takeWhile fun c => decide (c ≠ ':')
        effect := effectOfToken ((v.dropWhile fun c => decide (c ≠ ':')).drop 1) }
  else none

/-- The loop body with the directive kind decided by first match: the label
check first, the taint check only when the label check fails. -/
def tagStepPriority (st : LoopState) (t : Tag) : Option LoopState :=
  if isManagable t.key = false then some st
  else
    match splitEC2Tag t.key with
    | (_, some _) => some st
    | (res, none) =>
      if contains t.key AWS_LABEL_K8S_LABEL then
        (goIndex res 3).map fun r3 =>
          { ll := mapSet st.ll (K8S_LABEL_PREFIX ++ "/".toList ++ r3) t.value
            taints := st.taints }
      else if contains t.key AWS_LABEL_K8S_TAINT then
        (getTaintFromAWSTag res t.value).map fun out =>
          match out with
          | (_, some _) => st
          | (taint, none) => { ll := st.ll, taints := st.taints ++ [taint] }
      else some st

/-- The loop over the tags with the first-match body. -/
def tagLoopPriority : LoopState → List Tag → Option LoopState
  | st, [] => some st
  | st, t :: ts => (tagStepPriority st t).bind fun st' => tagLoopPriority st' ts

/-! ## Splitting and joining -/

theorem split_ne_nil (sep : Char) (s : Str) : split sep s ≠ [] := by
  cases s with
  | nil => simp [split]
  | cons c cs =>
    unfold split
    split_ifs
    · simp
    · split <;> simp

theorem split_cons_sep (sep : Char) (cs : Str) :
    split sep (sep :: cs) = [] :: split sep cs := by
  simp [split]

theorem split_cons_ne (sep c : Char) (cs : Str) (h : c ≠ sep) :
    split sep (c :: cs) = (c :: (split sep cs).headI) :: (split sep cs).tail := by
  have hne := split_ne_nil sep cs
  rw [split, if_neg h]
  cases hs : split sep cs with
  | nil => exact absurd hs hne
  | cons seg rest => rfl

theorem length_split (sep : Char) (s : Str) :
    (split sep s).length = s.count sep + 1 := by
  induction s with
  | nil => simp [split]
  | cons c cs ih =>
    by_cases h : c = sep
    · subst h
      simp [split_cons_sep, ih]
    · have hne := split_ne_nil sep cs
      rw [split_cons_ne sep c cs h, List.count_cons_of_ne (Ne.symm h), ← ih]
      cases hs : split sep cs with
      | nil => exact absurd hs hne
      | cons seg rest => simp

theorem join_split (sep : Char) (s : Str) : join [sep] (split sep s) = s := by
  induction s with
  | nil => simp [split, join]
  | cons c cs ih =>
    by_cases h : c = sep
    · subst h
      rw [split_cons_sep]
      cases hs : split c cs with
      | nil => exact absurd hs (split_ne_nil c cs)
      | cons seg rest =>
        rw [hs] at ih
        simp [join, ih]
    · rw [split_cons_ne sep c cs h]
      cases hs : split sep cs with
      | nil => exact absurd hs (split_ne_nil sep cs)
      | cons seg rest =>
        rw [hs] at ih
        cases rest with
        | nil => simpa [join] using ih
        | cons y r =>
          simp only [join, List.headI, List.tail, List.cons_append, List.append_assoc] at ih ⊢
          rw [ih]

theorem not_mem_of_mem_split (sep : Char) (s : Str) :
    ∀ seg ∈ split sep s, sep ∉ seg := by
  induction s with
  | nil => simp [split]
  | cons c cs ih =>
    by_cases h : c = sep
    · subst h
      rw [split_cons_sep]
      intro seg hseg
      rcases List.mem_cons.1 hseg with rfl | hmem
      · simp
      · exact ih seg hmem
    · rw [split_cons_ne sep c cs h]
      cases hs : split sep cs with
      | nil => exact absurd hs (split_ne_nil sep cs)
      | cons seg rest =>
        rw [hs] at ih
        intro x hx
        rcases List.mem_cons.1 hx with rfl | hmem
        · have := ih seg (List.mem_cons_self _ _)
          simp only [List.headI, List.mem_cons, not_or]
          exact ⟨fun e => h e.symm, this⟩
        · exact ih x (List.mem_cons_of_mem _ hmem)

theorem split_of_not_mem (sep : Char) (s : Str) (h : sep ∉ s) : split sep s = [s] := by
  induction s with
  | nil => simp [split]
  | cons c cs ih =>
    have hc : c ≠ sep := fun e => h (e ▸ List.mem_cons_self _ _)
    have hcs : sep ∉ cs := fun e => h (List.mem_cons_of_mem _ e)
    rw [split_cons_ne sep c cs hc, ih hcs]
    rfl

/-- Splitting distributes over a separator in the middle. -/
theorem split_append_sep (sep : Char) (a b : Str) :
    split sep (a ++ sep :: b) = split sep a ++ split sep b := by
  induction a with
  | nil => simp [split]
  | cons c cs ih =>
    by_cases h : c = sep
    · subst h
      simp [split_cons_sep, ih]
    · rw [List.cons_append, split_cons_ne sep c _ h, split_cons_ne sep c cs h, ih]
      cases hs : split sep cs with
      | nil => exact absurd hs (split_ne_nil sep cs)
      | cons seg rest => simp

/-- A separator-free text in front of a string joins its first piece. -/
theorem split_append_left (sep : Char) (p s : Str) (hp : sep ∉ p) :
    split sep (p ++ s) = (p ++ (split sep s).headI) :: (split sep s).tail := by
  induction p with
  | nil =>
    cases hs : split sep s with
    | nil => exact absurd hs (split_ne_nil sep s)
    | cons seg rest => simp [hs]
  | cons c cs ih =>
    have hc : c ≠ sep := fun e => hp (e ▸ List.mem_cons_self _ _)
    have hcs : sep ∉ cs := fun e => hp (List.mem_cons_of_mem _ e)
    rw [List.cons_append, split_cons_ne sep c _ hc, ih hcs]
    rfl

/-- A separator-free text behind a string joins its last piece. -/
theorem split_append_right (sep : Char) (s p : Str) (hp : sep ∉ p) :
    split sep (s ++ p) = (split sep s).dropLast ++ [(split sep s).getLastD [] ++ p] := by
  induction s with
  | nil => simp [split, split_of_not_mem sep p hp]
  | cons c cs ih =>
    by_cases h : c = sep
    · subst h
      rw [List.cons_append, split_cons_sep, split_cons_sep, ih]
      cases hs : split c cs with
      | nil => exact absurd hs (split_ne_nil c cs)
      | cons seg rest => simp [List.dropLast]
    · rw [List.cons_append, split_cons_ne sep c _ h, split_cons_ne sep c cs h, ih]
      cases hs : split sep cs with
      | nil => exact absurd hs (split_ne_nil sep cs)
      | cons seg rest =>
        cases rest with
        | nil => simp [List.dropLast]
        | cons y r => simp [List.dropLast]

theorem split_of_count_one (sep : Char) (s : Str) (h : s.count sep = 1) :
    split sep s = [s.takeWhile (fun c => decide (c ≠ sep)),
                   (s.dropWhile (fun c => decide (c ≠ sep))).drop 1] := by
  induction s with
  | nil => simp at h
  | cons c cs ih =>
    by_cases hc : c = sep
    · subst hc
      have h0 : cs.count c = 0 := by simpa using h
      have hnm : c ∉ cs := List.count_eq_zero.1 h0
      simp [split_cons_sep, split_of_not_mem c cs hnm]
    · have h1 : cs.count sep = 1 := by
        rwa [List.count_cons_of_ne (Ne.symm hc)] at h
      rw [split_cons_ne sep c cs hc, ih h1]
      simp [hc]

theorem getTaintFromAWSTag_of_length_ne (res : List Str) (v : Str)
    (h : (split ':' v).length ≠ 2) :
    getTaintFromAWSTag res v = some (Taint.zero,
      some ⟨"wrong format for a tail's value. It shoud be like: labelValue:Effect"⟩) := by
  unfold getTaintFromAWSTag
  simp only [dif_pos h]

theorem getTaintFromAWSTag_of_split (res : List Str) (v a b : Str)
    (h : split ':' v = [a, b]) :
    getTaintFromAWSTag res v = (goIndex res 3).map fun r3 =>
      (({ key := K8S_LABEL_PREFIX ++ "/".toList ++ r3
          value := a
          effect :=
            if b = "PreferNoSchedule".toList then TaintEffect.PreferNoSchedule
            else if b = "NoExecute".toList then TaintEffect.NoExecute
            else TaintEffect.NoSchedule } : Taint), (none : Option GoError)) := by
  simp [getTaintFromAWSTag, h]

/-! ## Searching -/

theorem hasPrefix_iff (s p : Str) : hasPrefix s p = true ↔ p <+: s := by
  induction p generalizing s with
  | nil => cases s <;> simp [hasPrefix]
  | cons a p ih =>
    cases s with
    | nil => simp [hasPrefix]
    | cons c cs =>
      simp only [hasPrefix, Bool.and_eq_true, decide_eq_true_eq, ih, List.cons_prefix_cons]
      constructor
      · rintro ⟨rfl, h⟩; exact ⟨rfl, h⟩
      · rintro ⟨rfl, h⟩; exact ⟨rfl, h⟩

theorem contains_iff (s sub : Str) : contains s sub = true ↔ sub <:+: s := by
  induction s with
  | nil =>
    simp only [contains, hasPrefix_iff, List.prefix_nil, List.infix_nil]
  | cons c cs ih =>
    simp only [contains, Bool.or_eq_true, hasPrefix_iff, ih, List.infix_cons_iff]

theorem contains_iff_exists (s sub : Str) :
    contains s sub = true ↔ ∃ pre post, s = pre ++ sub ++ post := by
  rw [contains_iff]
  constructor
  · rintro ⟨pre, post, h⟩; exact ⟨pre, post, h.symm⟩
  · rintro ⟨pre, post, h⟩; exact ⟨pre, post, h.symm⟩

/-- The pieces of a string in which a pattern of three separator-free parts
`p0 sep p1 sep p2` occurs. -/
theorem split_pattern (sep : Char) (p0 p1 p2 pre post : Str)
    (h1 : sep ∉ p1) (h0 : sep ∉ p0) (h2 : sep ∉ p2) :
    split sep (pre ++ (p0 ++ sep :: (p1 ++ sep :: p2)) ++ post) =
      ((split sep pre).dropLast ++ [(split sep pre).getLastD [] ++ p0]) ++
        (p1 :: (p2 ++ (split sep post).headI) :: (split sep post).tail) := by
  have e : pre ++ (p0 ++ sep :: (p1 ++ sep :: p2)) ++ post =
      (pre ++ p0) ++ sep :: (p1 ++ sep :: (p2 ++ post)) := by simp
  rw [e, split_append_sep, split_append_sep, split_of_not_mem sep p1 h1,
    split_append_right sep pre p0 h0, split_append_left sep p2 post h2]
  simp

/-- Where a three-part pattern can sit in a string of exactly four pieces. -/
theorem contains_pattern_four (sep : Char) (k s0 s1 s2 s3 p0 p1 p2 : Str)
    (h0 : sep ∉ p0) (h1 : sep ∉ p1) (h2 : sep ∉ p2)
    (h : split sep k = [s0, s1, s2, s3]) :
    contains k (p0 ++ sep :: (p1 ++ sep :: p2)) = true ↔
      (p0 <:+ s0 ∧ s1 = p1 ∧ p2 <+: s2) ∨ (p0 <:+ s1 ∧ s2 = p1 ∧ p2 <+: s3) := by
  constructor
  · intro hc
    obtain ⟨pre, post, rfl⟩ := (contains_iff_exists _ _).1 hc
    rw [split_pattern sep p0 p1 p2 pre post h1 h0 h2] at h
    have hA := split_ne_nil sep pre
    have hB := split_ne_nil sep post
    rcases hsA : split sep pre with _ | ⟨x, _ | ⟨y, _ | ⟨z, A⟩⟩⟩
    · exact absurd hsA hA
    · rcases hsB : split sep post with _ | ⟨u, B⟩
      · exact absurd hsB hB
      · rw [hsA, hsB] at h
        simp only [List.dropLast, List.getLastD, List.nil_append, List.headI, List.tail,
          List.singleton_append, List.cons.injEq] at h
        obtain ⟨e0, e1, e2, _⟩ := h
        left
        exact ⟨⟨x, e0⟩, e1.symm, ⟨u, e2⟩⟩
    · rcases hsB : split sep post with _ | ⟨u, B⟩
      · exact absurd hsB hB
      · rw [hsA, hsB] at h
        simp only [List.dropLast, List.getLastD, List.headI, List.tail,
          List.cons_append, List.nil_append, List.cons.injEq] at h
        obtain ⟨_, e1, e2, e3, _⟩ := h
        right
        exact ⟨⟨y, e1⟩, e2.symm, ⟨u, e3⟩⟩
    · rw [hsA] at h
      have hl := congrArg List.length h
      simp at hl
      omega
  · intro hc
    have hk : k = s0 ++ (sep :: (s1 ++ (sep :: (s2 ++ (sep :: s3))))) := by
      have := join_split sep k
      rw [h] at this
      simpa [join] using this.symm
    rw [contains_iff_exists]
    rcases hc with ⟨⟨x, e0⟩, e1, ⟨u, e2⟩⟩ | ⟨⟨y, e1⟩, e2, ⟨u, e3⟩⟩
    · refine ⟨x, u ++ sep :: s3, ?_⟩
      rw [hk, ← e0, ← e2, e1]
      simp
    · refine ⟨s0 ++ sep :: y, u, ?_⟩
      rw [hk, ← e1, ← e3, e2]
      simp

/-! ## The loop as a fold -/

theorem splitEC2Tag_of_length (k : Str) (h : (split '/' k).length = 4) :
    splitEC2Tag k = (split '/' k, none) := by
  simp [splitEC2Tag, h]

theorem splitEC2Tag_of_length_ne (k : Str) (h : (split '/' k).length ≠ 4) :
    splitEC2Tag k = ([], some ⟨"wrong format for a tag."⟩) := by
  simp [splitEC2Tag, h]

theorem splitEC2Tag_snd_isNone (k : Str) :
    (splitEC2Tag k).2.isNone = decide ((split '/' k).length = 4) := by
  by_cases h : (split '/' k).length = 4
  · simp [splitEC2Tag_of_length k h, h]
  · simp [splitEC2Tag_of_length_ne k h, h]

theorem goIndex_three (res : List Str) (h : 4 ≤ res.length) :
    goIndex res 3 = some (res.getD 3 []) := by
  unfold goIndex
  rw [List.getD_eq_getElem?_getD, List.get?_eq_getElem?, List.getElem?_eq_getElem (by omega)]
  rfl

/-- The outcome of `getTaintFromAWSTag` on a slice of at least four segments:
it never panics. -/
theorem getTaintFromAWSTag_isSome (res : List Str) (v : Str) (h : 4 ≤ res.length) :
    ∃ out, getTaintFromAWSTag res v = some out := by
  by_cases hl : (split ':' v).length = 2
  · rcases hs : split ':' v with _ | ⟨a, _ | ⟨b, _ | ⟨c, r⟩⟩⟩
    · simp [hs] at hl
    · simp [hs] at hl
    · rw [getTaintFromAWSTag_of_split res v a b hs, goIndex_three res h]
      exact ⟨_, rfl⟩
    · simp [hs] at hl
  · exact ⟨_, getTaintFromAWSTag_of_length_ne res v hl⟩

/-- One pass of the loop body is the optional label write followed by the
optional taint append. -/
theorem tagStep_eq (st : LoopState) (t : Tag) :
    tagStep st t = some
      { ll := applyWrites st.ll (labelWrite t).toList
        taints := st.taints ++ (taintOf t).toList } := by
  cases st with
  | mk ll taints =>
  by_cases hm : isManagable t.key = true
  · by_cases hl : (split '/' t.key).length = 4
    · have hsp := splitEC2Tag_of_length t.key hl
      have hidx := goIndex_three (split '/' t.key) (le_of_eq hl.symm)
      obtain ⟨out, hout⟩ := getTaintFromAWSTag_isSome (split '/' t.key) t.value (le_of_eq hl.symm)
      have hacc : keyAccepted t.key = true := by
        simp [keyAccepted, hm, splitEC2Tag_snd_isNone, hl]
      unfold tagStep
      rw [if_neg (by simp [hm]), hsp]
      simp only [hidx, hout, Option.map_some']
      by_cases hL : contains t.key AWS_LABEL_K8S_LABEL = true <;>
      by_cases hT : contains t.key AWS_LABEL_K8S_TAINT = true <;>
      rcases out with ⟨taint, _ | e⟩ <;>
      simp [hL, hT, labelWrite, taintOf, isLabelTag, isTaintTag, hacc, hsp, hout, outKey,
        applyWrites]
    · have hsp := splitEC2Tag_of_length_ne t.key hl
      have hacc : keyAccepted t.key = false := by
        simp [keyAccepted, splitEC2Tag_snd_isNone, hl]
      unfold tagStep
      rw [if_neg (by simp [hm]), hsp]
      simp [labelWrite, taintOf, isLabelTag, isTaintTag, hacc, applyWrites]
  · have hacc : keyAccepted t.key = false := by
      simp [keyAccepted, hm]
    unfold tagStep
    rw [if_pos (by simpa using hm)]
    simp [labelWrite, taintOf, isLabelTag, isTaintTag, hacc, applyWrites]

theorem applyWrites_append (m : Labels) (a b : List (Str × Str)) :
    applyWrites m (a ++ b) = applyWrites (applyWrites m a) b := by
  simp [applyWrites, List.foldl_append]

/-- The loop never panics; it performs the label writes of the accepted label
tags in order and appends the taints of the accepted taint tags in order. -/
theorem tagLoop_eq (st : LoopState) (tags : List Tag) :
    tagLoop st tags = some
      { ll := applyWrites st.ll (tags.filterMap labelWrite)
        taints := st.taints ++ tags.filterMap taintOf } := by
  induction tags generalizing st with
  | nil => simp [tagLoop, applyWrites]
  | cons t ts ih =>
    rw [tagLoop, tagStep_eq, Option.some_bind, ih]
    cases hw : labelWrite t <;> cases ht : taintOf t <;>
      simp [List.filterMap_cons, hw, ht, applyWrites]

theorem onAddPass_eq (labels : Labels) (nodeTaints : List Taint) (tags : List Tag) :
    onAddPass labels nodeTaints tags = some
      { labels := applyWrites labels (tags.filterMap labelWrite)
        taints := nodeTaints ++ tags.filterMap taintOf
        changed :=
          decide (mapLen labels ≠ mapLen (applyWrites labels (tags.filterMap labelWrite))) ||
          decide (nodeTaints.length ≠ (nodeTaints ++ tags.filterMap taintOf).length) } := by
  simp only [onAddPass, tagLoop_eq, Option.map_some']

/-! ## Label and taint patterns exclude each other -/

theorem label_pattern_eq :
    AWS_LABEL_K8S_LABEL =
      "kubernetes".toList ++ '/' :: ("aws-labeler".toList ++ '/' :: "label".toList) := by
  decide

theorem taint_pattern_eq :
    AWS_LABEL_K8S_TAINT =
      "kubernetes".toList ++ '/' :: ("aws-labeler".toList ++ '/' :: "taint".toList) := by
  decide

theorem prefix_eq_of_length_eq {p q s : Str} (hp : p <+: s) (hq : q <+: s)
    (hl : p.length = q.length) : p = q :=
  (List.prefix_of_prefix_length_le hp hq (le_of_eq hl)).eq_of_length hl

/-- The label pattern in a key of four segments. -/
theorem contains_label_four (k s0 s1 s2 s3 : Str) (h : split '/' k = [s0, s1, s2, s3]) :
    contains k AWS_LABEL_K8S_LABEL = true ↔
      ("kubernetes".toList <:+ s0 ∧ s1 = "aws-labeler".toList ∧ "label".toList <+: s2) ∨
      ("kubernetes".toList <:+ s1 ∧ s2 = "aws-labeler".toList ∧ "label".toList <+: s3) := by
  rw [label_pattern_eq]
  exact contains_pattern_four '/' k s0 s1 s2 s3 _ _ _ (by decide) (by decide) (by decide) h

/-- The taint pattern in a key of four segments. -/
theorem contains_taint_four (k s0 s1 s2 s3 : Str) (h : split '/' k = [s0, s1, s2, s3]) :
    contains k AWS_LABEL_K8S_TAINT = true ↔
      ("kubernetes".toList <:+ s0 ∧ s1 = "aws-labeler".toList ∧ "taint".toList <+: s2) ∨
      ("kubernetes".toList <:+ s1 ∧ s2 = "aws-labeler".toList ∧ "taint".toList <+: s3) := by
  rw [taint_pattern_eq]
  exact contains_pattern_four '/' k s0 s1 s2 s3 _ _ _ (by decide) (by decide) (by decide) h

theorem four_of_length {α : Type} (l : List α) (h : l.length = 4) :
    ∃ a b c d, l = [a, b, c, d] := by
  rcases l with _ | ⟨a, _ | ⟨b, _ | ⟨c, _ | ⟨d, _ | ⟨e, r⟩⟩⟩⟩⟩ <;> simp at h
  exact ⟨a, b, c, d, rfl⟩

/-- No key of four segments holds both the label and the taint pattern. -/
theorem not_label_and_taint (k : Str) (h : (split '/' k).length = 4) :
    ¬ (contains k AWS_LABEL_K8S_LABEL = true ∧ contains k AWS_LABEL_K8S_TAINT = true) := by
  obtain ⟨s0, s1, s2, s3, hs⟩ := four_of_length _ h
  rw [contains_label_four k s0 s1 s2 s3 hs, contains_taint_four k s0 s1 s2 s3 hs]
  have hne : "label".toList ≠ "taint".toList := by decide
  have hsuf : ¬ "kubernetes".toList <:+ "aws-labeler".toList := by decide
  rintro ⟨⟨_, e1, l2⟩ | ⟨l1, e2, l3⟩, ⟨_, e1', t2⟩ | ⟨t1, e2', t3⟩⟩
  · exact hne (prefix_eq_of_length_eq l2 t2 rfl)
  · exact hsuf (e1 ▸ t1)
  · exact hsuf (e1' ▸ l1)
  · exact hne (prefix_eq_of_length_eq l3 t3 rfl)

/-! ## Maps -/

theorem mapKeys_mapSet (m : Labels) (k v : Str) :
    mapKeys (mapSet m k v) = if k ∈ mapKeys m then mapKeys m else mapKeys m ++ [k] := by
  induction m with
  | nil => simp [mapSet, mapKeys]
  | cons e m ih =>
    obtain ⟨k', v'⟩ := e
    by_cases hk : k' = k
    · subst hk
      simp [mapSet, mapKeys]
    · have hk' : k ≠ k' := fun e => hk e.symm
      simp only [mapSet, if_neg hk]
      simp only [mapKeys, List.map_cons, List.mem_cons, hk', false_or] at ih ⊢
      rw [ih]
      split_ifs <;> simp

theorem mapLen_mapSet (m : Labels) (k v : Str) :
    mapLen (mapSet m k v) = if k ∈ mapKeys m then mapLen m else mapLen m + 1 := by
  have h := congrArg List.length (mapKeys_mapSet m k v)
  simp only [mapKeys, List.length_map] at h
  simp only [mapLen, h, mapKeys]
  split_ifs <;> simp

theorem mem_mapKeys_mapSet (m : Labels) (k v x : Str) :
    x ∈ mapKeys (mapSet m k v) ↔ x ∈ mapKeys m ∨ x = k := by
  rw [mapKeys_mapSet]
  split_ifs with h
  · constructor
    · exact Or.inl
    · rintro (h' | rfl)
      · exact h'
      · exact h
  · simp

theorem mapGet_mapSet_self (m : Labels) (k v : Str) : mapGet (mapSet m k v) k = some v := by
  induction m with
  | nil => simp [mapSet, mapGet]
  | cons e m ih =>
    obtain ⟨k', v'⟩ := e
    by_cases hk : k' = k
    · simp [mapSet, mapGet, hk]
    · simp [mapSet, mapGet, hk, ih]

theorem mapGet_mapSet_ne (m : Labels) (k v x : Str) (h : x ≠ k) :
    mapGet (mapSet m k v) x = mapGet m x := by
  induction m with
  | nil => simp [mapSet, mapGet, Ne.symm h]
  | cons e m ih =>
    obtain ⟨k', v'⟩ := e
    by_cases hk : k' = k
    · subst hk
      simp [mapSet, mapGet, Ne.symm h]
    · by_cases hx : k' = x
      · subst hx
        simp [mapSet, mapGet, hk]
      · simp [mapSet, mapGet, hk, hx, ih]

theorem mapGet_isSome_iff (m : Labels) (k : Str) : (mapGet m k).isSome = true ↔ k ∈ mapKeys m := by
  induction m with
  | nil => simp [mapGet, mapKeys]
  | cons e m ih =>
    obtain ⟨k', v'⟩ := e
    by_cases hk : k' = k
    · simp [mapGet, mapKeys, hk]
    · have hk' : k ≠ k' := fun e => hk e.symm
      simp only [mapGet, if_neg hk, ih]
      simp [mapKeys, hk']

theorem mapSet_mapSet_same (m : Labels) (k v w : Str) :
    mapSet (mapSet m k v) k w = mapSet m k w := by
  induction m with
  | nil => simp [mapSet]
  | cons e m ih =>
    obtain ⟨k', v'⟩ := e
    by_cases hk : k' = k
    · simp [mapSet, hk]
    · simp [mapSet, hk, ih]

theorem mapSet_comm (m : Labels) (k v k' v' : Str) (hne : k ≠ k') (hmem : k' ∈ mapKeys m) :
    mapSet (mapSet m k v) k' v' = mapSet (mapSet m k' v') k v := by
  induction m with
  | nil => simp [mapKeys] at hmem
  | cons e m ih =>
    obtain ⟨a, b⟩ := e
    by_cases ha : a = k
    · subst ha
      simp [mapSet, hne]
    · by_cases ha' : a = k'
      · subst ha'
        simp [mapSet, ha]
      · have hm : k' ∈ mapKeys m := by
          simp only [mapKeys, List.map_cons, List.mem_cons] at hmem
          rcases hmem with h | h
          · exact absurd h.symm ha'
          · exact h
        simp [mapSet, ha, ha', ih hm]

theorem mapSet_of_mapGet (m : Labels) (k v : Str) (h : mapGet m k = some v) :
    mapSet m k v = m := by
  induction m with
  | nil => simp [mapGet] at h
  | cons e m ih =>
    obtain ⟨a, b⟩ := e
    by_cases ha : a = k
    · simp only [mapGet, if_pos ha, Option.some.injEq] at h
      simp [mapSet, ha, h]
    · simp only [mapGet, if_neg ha] at h
      simp [mapSet, ha, ih h]

theorem nodup_mapKeys_mapSet (m : Labels) (k v : Str) (h : (mapKeys m).Nodup) :
    (mapKeys (mapSet m k v)).Nodup := by
  rw [mapKeys_mapSet]
  split_ifs with hk
  · exact h
  · exact List.nodup_append.2 ⟨h, List.nodup_singleton k, by simpa using hk⟩

/-! ## Sequences of writes -/

theorem applyWrites_nil (m : Labels) : applyWrites m [] = m := rfl

theorem applyWrites_cons (m : Labels) (w : Str × Str) (ws : List (Str × Str)) :
    applyWrites m (w :: ws) = applyWrites (mapSet m w.1 w.2) ws := rfl

theorem mem_mapKeys_applyWrites (m : Labels) (ws : List (Str × Str)) (x : Str) :
    x ∈ mapKeys (applyWrites m ws) ↔ x ∈ mapKeys m ∨ x ∈ ws.map Prod.fst := by
  induction ws generalizing m with
  | nil => simp [applyWrites_nil]
  | cons w ws ih =>
    rw [applyWrites_cons, ih, mem_mapKeys_mapSet]
    simp only [List.map_cons, List.mem_cons]
    tauto

theorem mapLen_le_mapSet (m : Labels) (k v : Str) : mapLen m ≤ mapLen (mapSet m k v) := by
  rw [mapLen_mapSet]
  split_ifs <;> omega

theorem mapLen_le_applyWrites (m : Labels) (ws : List (Str × Str)) :
    mapLen m ≤ mapLen (applyWrites m ws) := by
  induction ws generalizing m with
  | nil => simp [applyWrites_nil]
  | cons w ws ih =>
    rw [applyWrites_cons]
    exact le_trans (mapLen_le_mapSet m w.1 w.2) (ih _)

/-- The number of entries stays the same exactly when every write hits a key
that was already there. -/
theorem mapLen_applyWrites_eq_iff (m : Labels) (ws : List (Str × Str)) :
    mapLen (applyWrites m ws) = mapLen m ↔ ∀ w ∈ ws, w.1 ∈ mapKeys m := by
  induction ws generalizing m with
  | nil => simp [applyWrites_nil]
  | cons w ws ih =>
    rw [applyWrites_cons]
    have h1 := mapLen_le_mapSet m w.1 w.2
    have h2 := mapLen_le_applyWrites (mapSet m w.1 w.2) ws
    have hset := mapLen_mapSet m w.1 w.2
    by_cases hw : w.1 ∈ mapKeys m
    · rw [if_pos hw] at hset
      have hkeys : mapKeys (mapSet m w.1 w.2) = mapKeys m := by
        rw [mapKeys_mapSet, if_pos hw]
      rw [← hset, ih, hkeys]
      simp [hw]
    · rw [if_neg hw] at hset
      constructor
      · intro h; omega
      · intro h
        exact absurd (h w (List.mem_cons_self _ _)) hw

theorem mapGet_applyWrites_of_not_mem (m : Labels) (ws : List (Str × Str)) (x : Str)
    (h : x ∉ ws.map Prod.fst) : mapGet (applyWrites m ws) x = mapGet m x := by
  induction ws generalizing m with
  | nil => simp [applyWrites_nil]
  | cons w ws ih =>
    simp only [List.map_cons, List.mem_cons, not_or] at h
    rw [applyWrites_cons, ih _ h.2, mapGet_mapSet_ne _ _ _ _ h.1]

/-- A write whose key is overwritten at the end may be dropped from the front
when all the keys in between are present. -/
theorem applyWrites_mapSet_absorb (m : Labels) (ws : List (Str × Str)) (k v w : Str)
    (h : ∀ e ∈ ws, e.1 ∈ mapKeys m) :
    mapSet (applyWrites (mapSet m k v) ws) k w = mapSet (applyWrites m ws) k w := by
  induction ws generalizing m v with
  | nil => simp [applyWrites_nil, mapSet_mapSet_same]
  | cons e ws ih =>
    have he : e.1 ∈ mapKeys m := h e (List.mem_cons_self _ _)
    have hws : ∀ e' ∈ ws, e'.1 ∈ mapKeys (mapSet m e.1 e.2) := by
      intro e' he'
      rw [mem_mapKeys_mapSet]
      exact Or.inl (h e' (List.mem_cons_of_mem _ he'))
    rw [applyWrites_cons, applyWrites_cons]
    by_cases hk : k = e.1
    · rw [hk, mapSet_mapSet_same]
    · rw [mapSet_comm m k v e.1 e.2 hk he]
      exact ih (mapSet m e.1 e.2) v hws

/-- Replaying the writes of a pass on its own result changes nothing. -/
theorem applyWrites_idem (m : Labels) (ws : List (Str × Str)) :
    applyWrites (applyWrites m ws) ws = applyWrites m ws := by
  induction ws using List.reverseRecOn with
  | nil => rfl
  | append_singleton ws e ih =>
    have hkeys : ∀ e' ∈ ws, e'.1 ∈ mapKeys (applyWrites m ws) := by
      intro e' he'
      rw [mem_mapKeys_applyWrites]
      exact Or.inr (List.mem_map_of_mem _ he')
    rw [applyWrites_append m ws [e], applyWrites_append _ ws [e]]
    simp only [applyWrites_cons, applyWrites_nil]
    rw [applyWrites_mapSet_absorb (applyWrites m ws) ws e.1 e.2 e.2 hkeys, ih]

/-- A pass keeps the keys of a map pairwise distinct. -/
theorem nodup_mapKeys_applyWrites (m : Labels) (ws : List (Str × Str))
    (h : (mapKeys m).Nodup) : (mapKeys (applyWrites m ws)).Nodup := by
  induction ws generalizing m with
  | nil => exact h
  | cons w ws ih =>
    rw [applyWrites_cons]
    exact ih _ (nodup_mapKeys_mapSet m w.1 w.2 h)

/-! ## The claims -/

/-- C1: on a segment list of at least four elements `getTaintFromAWSTag` agrees
with the reference: it fails exactly when the value does not split on the colon
into exactly two parts (it does not hold exactly one colon), and otherwise
returns, without error, the taint whose key is the output prefix followed by
segment 3, whose value is the text before the colon, and whose effect is
`PreferNoSchedule` or `NoExecute` for these two tokens and `NoSchedule` for
every other token. -/
theorem getTaintFromAWSTag_eq_reference (res : List Str) (v : Str) (h : 4 ≤ res.length) :
    (taintReference res v = none ↔ (split ':' v).length ≠ 2) ∧
    (taintReference res v = none ↔ v.count ':' ≠ 1) ∧
    getTaintFromAWSTag res v = some
      (match taintReference res v with
        | some t => (t, none)
        | none => (Taint.zero,
            some ⟨"wrong format for a tail's value. It shoud be like: labelValue:Effect"⟩)) := by
  by_cases hc : v.count ':' = 1
  · have hs := split_of_count_one ':' v hc
    have hl : (split ':' v).length = 2 := by rw [hs]; rfl
    refine ⟨by simp [taintReference, hc, hl], by simp [taintReference, hc], ?_⟩
    rw [getTaintFromAWSTag_of_split res v _ _ hs, goIndex_three res h]
    simp only [taintReference, if_pos hc, Option.map_some', effectOfToken]
    have hp : K8S_LABEL_PREFIX ++ "/".toList = "awslabeler.com/".toList := by decide
    rw [hp]
  · have hl : (split ':' v).length ≠ 2 := by
      rw [length_split]; omega
    refine ⟨by simp [taintReference, hc, hl], by simp [taintReference, hc], ?_⟩
    rw [getTaintFromAWSTag_of_length_ne res v hl]
    simp [taintReference, hc]

/-- C1, on the second case of `TestGetTaintFromEC2Tag`: the unknown effect token
`blabla` gives `NoSchedule`, not an error. -/
theorem getTaintFromAWSTag_eq_reference_witness :
    4 ≤ (split '/' "kubernetes/aws-labeler/tail/type".toList).length ∧
    getTaintFromAWSTag (split '/' "kubernetes/aws-labeler/tail/type".toList)
        "frontline:blabla".toList =
      some (⟨"awslabeler.com/type".toList, "frontline".toList, TaintEffect.NoSchedule⟩, none) :=
  ⟨by decide,
   ((getTaintFromAWSTag_eq_reference (split '/' "kubernetes/aws-labeler/tail/type".toList)
      "frontline:blabla".toList (by decide)).2.2).trans (by decide)⟩

/-- C2: `splitEC2Tag` succeeds exactly when the key splits on the slash into
exactly four segments, that is when it holds exactly three slashes; on success it
returns these four slash-free segments in order, and joining them with slashes
gives the key back; on failure it returns no segments. -/
theorem splitEC2Tag_spec (k : Str) :
    ((splitEC2Tag k).2 = none ↔ (split '/' k).length = 4) ∧
    ((splitEC2Tag k).2 = none ↔ k.count '/' = 3) ∧
    ((splitEC2Tag k).2 = none →
      (splitEC2Tag k).1 = split '/' k ∧ (splitEC2Tag k).1.length = 4 ∧
      join "/".toList (splitEC2Tag k).1 = k ∧ ∀ seg ∈ (splitEC2Tag k).1, '/' ∉ seg) ∧
    ((splitEC2Tag k).2 ≠ none → (splitEC2Tag k).1 = []) := by
  have hcount : (split '/' k).length = 4 ↔ k.count '/' = 3 := by
    rw [length_split]; omega
  by_cases hl : (split '/' k).length = 4
  · have hs := splitEC2Tag_of_length k hl
    refine ⟨by simp [hs, hl], by simp [hs, hcount.1 hl], ?_, by simp [hs]⟩
    intro _
    rw [hs]
    exact ⟨rfl, hl, join_split '/' k, not_mem_of_mem_split '/' k⟩
  · have hs := splitEC2Tag_of_length_ne k hl
    refine ⟨by simp [hs, hl], ?_, by simp [hs], by simp [hs]⟩
    simp only [hs]
    constructor
    · intro h; simp at h
    · intro h; exact absurd (hcount.2 h) hl

/-- C8: `InstanceIDFromProviderID` fails (empty ID and an error) unless the
provider ID splits on the slash into exactly five segments, that is unless it
holds exactly four slashes; when it does, the result is the fifth and last
segment, without error.  The provider ID of the test gives `i-0393ac1bb853a1fb5`. -/
theorem InstanceIDFromProviderID_spec :
    (∀ p : Str,
      ((InstanceIDFromProviderID p).2 = none ↔ (split '/' p).length = 5) ∧
      ((InstanceIDFromProviderID p).2 = none ↔ p.count '/' = 4) ∧
      ((InstanceIDFromProviderID p).2 = none →
        (split '/' p).get? 4 = some (InstanceIDFromProviderID p).1 ∧
        (split '/' p).getLast? = some (InstanceIDFromProviderID p).1) ∧
      ((InstanceIDFromProviderID p).2 ≠ none → (InstanceIDFromProviderID p).1 = [])) ∧
    InstanceIDFromProviderID "aws:///us-east-1c/i-0393ac1bb853a1fb5".toList =
      ("i-0393ac1bb853a1fb5".toList, none) := by
  refine ⟨fun p => ?_, by decide⟩
  have hcount : (split '/' p).length = 5 ↔ p.count '/' = 4 := by
    rw [length_split]; omega
  by_cases hl : (split '/' p).length = 5
  · rcases hs : split '/' p with _ | ⟨a, _ | ⟨b, _ | ⟨c, _ | ⟨d, _ | ⟨e, _ | ⟨f, r⟩⟩⟩⟩⟩⟩ <;>
      rw [hs] at hl <;> simp at hl
    have hc := hcount.1 (by rw [hs]; rfl)
    simp [InstanceIDFromProviderID, hs, hc]
  · have hc : ¬ p.count '/' = 4 := fun h => hl (hcount.2 h)
    simp [InstanceIDFromProviderID, hl, hc]

/-- C3, as stated, fails: the key of the second tag spells the kind `tail`, so it
does not hold the taint pattern `kubernetes/aws-labeler/taint`; the tag is
managed and well formed but adds no taint, and the taint list stays empty. -/
theorem scenario_tail_adds_no_taint :
    isManagable "kubernetes/aws-labeler/tail/type".toList = true ∧
    contains "kubernetes/aws-labeler/tail/type".toList AWS_LABEL_K8S_TAINT = false ∧
    onAddPass [] []
        [⟨"kubernetes/aws-labeler/label/type".toList, "web".toList⟩,
         ⟨"kubernetes/aws-labeler/tail/type".toList, "ci:NoExecute".toList⟩] =
      some
        { labels := [("awslabeler.com/type".toList, "web".toList)]
          taints := []
          changed := true } ∧
    onAddPass [] []
        [⟨"kubernetes/aws-labeler/label/type".toList, "web".toList⟩,
         ⟨"kubernetes/aws-labeler/tail/type".toList, "ci:NoExecute".toList⟩] ≠
      some
        { labels := [("awslabeler.com/type".toList, "web".toList)]
          taints := [⟨"awslabeler.com/type".toList, "ci".toList, TaintEffect.NoExecute⟩]
          changed := true } := by
  decide

/-- C3, amended: from empty labels and no taints, the label tag together with the
tag `kubernetes/aws-labeler/taint/type` of value `ci:NoExecute` gives the label
`awslabeler.com/type` of value `web`, the one taint of key `awslabeler.com/type`,
value `ci` and effect `NoExecute`, and `changed = true`; with the second key
spelled `kubernetes/aws-labeler/tail/type` the label and `changed = true` are the
same and no taint is added. -/
theorem scenario_end_to_end :
    onAddPass [] []
        [⟨"kubernetes/aws-labeler/label/type".toList, "web".toList⟩,
         ⟨"kubernetes/aws-labeler/taint/type".toList, "ci:NoExecute".toList⟩] =
      some
        { labels := [("awslabeler.com/type".toList, "web".toList)]
          taints := [⟨"awslabeler.com/type".toList, "ci".toList, TaintEffect.NoExecute⟩]
          changed := true } ∧
    onAddPass [] []
        [⟨"kubernetes/aws-labeler/label/type".toList, "web".toList⟩,
         ⟨"kubernetes/aws-labeler/tail/type".toList, "ci:NoExecute".toList⟩] =
      some
        { labels := [("awslabeler.com/type".toList, "web".toList)]
          taints := []
          changed := true } := by
  decide

theorem keyAccepted_length (k : Str) (h : keyAccepted k = true) :
    (split '/' k).length = 4 := by
  simp only [keyAccepted, Bool.and_eq_true, splitEC2Tag_snd_isNone, decide_eq_true_eq] at h
  exact h.2

/-- A tag is never both a label tag and a taint tag. -/
theorem not_isLabelTag_of_isTaintTag (t : Tag) (h : isTaintTag t = true) :
    isLabelTag t = false := by
  simp only [isTaintTag, Bool.and_eq_true] at h
  have hx := not_label_and_taint t.key (keyAccepted_length t.key h.1)
  cases hL : contains t.key AWS_LABEL_K8S_LABEL
  · simp [isLabelTag, hL]
  · exact absurd ⟨hL, h.2⟩ hx

/-- C4: a tag that is skipped is a no-op wherever it stands in the sequence.  A
tag whose key is not managed, or is managed but rejected by `splitEC2Tag`, or
is a taint tag whose value `getTaintFromAWSTag` rejects, can be removed from the
tag sequence without changing the labels, the taints or the changed flag that
lines 138-166 compute; the pass returns, so the tags after it are processed. -/
theorem skipped_tag_noop (labels : Labels) (nodeTaints : List Taint)
    (before after : List Tag) (t : Tag)
    (h : isManagable t.key = false ∨
         (isManagable t.key = true ∧ (splitEC2Tag t.key).2 ≠ none) ∨
         (isTaintTag t = true ∧
           ∃ out e, getTaintFromAWSTag (splitEC2Tag t.key).1 t.value = some (out, some e))) :
    onAddPass labels nodeTaints (before ++ t :: after) =
      onAddPass labels nodeTaints (before ++ after) ∧
    tagLoop ⟨labels, nodeTaints⟩ (before ++ t :: after) =
      tagLoop ⟨labels, nodeTaints⟩ (before ++ after) ∧
    (onAddPass labels nodeTaints (before ++ after)).isSome = true := by
  have hw : labelWrite t = none ∧ taintOf t = none := by
    rcases h with h | ⟨_, h⟩ | ⟨hT, out, e, h⟩
    · simp [labelWrite, taintOf, isLabelTag, isTaintTag, keyAccepted, h]
    · have : (splitEC2Tag t.key).2.isNone = false := by
        cases hs : (splitEC2Tag t.key).2 with
        | none => exact absurd hs h
        | some e => rfl
      simp [labelWrite, taintOf, isLabelTag, isTaintTag, keyAccepted, this]
    · refine ⟨by simp [labelWrite, not_isLabelTag_of_isTaintTag t hT], ?_⟩
      simp [taintOf, hT, h]
  have hf1 : (before ++ t :: after).filterMap labelWrite =
      (before ++ after).filterMap labelWrite := by
    simp [List.filterMap_append, List.filterMap_cons, hw.1]
  have hf2 : (before ++ t :: after).filterMap taintOf =
      (before ++ after).filterMap taintOf := by
    simp [List.filterMap_append, List.filterMap_cons, hw.2]
  refine ⟨?_, ?_, ?_⟩
  · rw [onAddPass_eq, onAddPass_eq, hf1, hf2]
  · rw [tagLoop_eq, tagLoop_eq, hf1, hf2]
  · rw [onAddPass_eq]; rfl

/-- C4, on a taint tag whose value holds no colon, between a label tag and a
taint tag: the pass is the one of the two other tags. -/
theorem skipped_tag_noop_witness :
    (isTaintTag ⟨"kubernetes/aws-labeler/taint/role".toList, "nocolon".toList⟩ = true ∧
      ∃ out e, getTaintFromAWSTag
        (splitEC2Tag "kubernetes/aws-labeler/taint/role".toList).1 "nocolon".toList =
          some (out, some e)) ∧
    onAddPass [] []
        ([⟨"kubernetes/aws-labeler/label/type".toList, "web".toList⟩] ++
          ⟨"kubernetes/aws-labeler/taint/role".toList, "nocolon".toList⟩ ::
          [⟨"kubernetes/aws-labeler/taint/type".toList, "ci:NoExecute".toList⟩]) =
      onAddPass [] []
        ([⟨"kubernetes/aws-labeler/label/type".toList, "web".toList⟩] ++
          [⟨"kubernetes/aws-labeler/taint/type".toList, "ci:NoExecute".toList⟩]) :=
  ⟨⟨by decide, Taint.zero, _, rfl⟩,
   (skipped_tag_noop [] []
      [⟨"kubernetes/aws-labeler/label/type".toList, "web".toList⟩]
      [⟨"kubernetes/aws-labeler/taint/type".toList, "ci:NoExecute".toList⟩]
      ⟨"kubernetes/aws-labeler/taint/role".toList, "nocolon".toList⟩
      (Or.inr (Or.inr ⟨by decide, Taint.zero, _, rfl⟩))).1⟩

theorem mem_filterMap_labelWrite (tags : List Tag) (w : Str × Str) :
    w ∈ tags.filterMap labelWrite ↔
      ∃ t ∈ tags, isLabelTag t = true ∧ w = (outKey t, t.value) := by
  simp only [List.mem_filterMap, labelWrite]
  constructor
  · rintro ⟨t, ht, h⟩
    by_cases hL : isLabelTag t = true
    · rw [if_pos hL] at h
      exact ⟨t, ht, hL, (Option.some.inj h).symm⟩
    · rw [if_neg hL] at h
      exact absurd h (by simp)
  · rintro ⟨t, ht, hL, rfl⟩
    exact ⟨t, ht, by rw [if_pos hL]⟩

theorem filterMap_taintOf_eq_nil (tags : List Tag) (h : ∀ t ∈ tags, taintOf t = none) :
    tags.filterMap taintOf = [] := by
  induction tags with
  | nil => rfl
  | cons t ts ih =>
    rw [List.filterMap_cons, h t (List.mem_cons_self _ _)]
    exact ih fun x hx => h x (List.mem_cons_of_mem _ hx)

/-- C5: when no tag of the sequence is accepted as a taint, running lines 138-166
a second time with the same tags, on the labels and taints the first run
returned, returns the same labels and the same taints and reports
`changed = false`. -/
theorem onAddPass_idempotent (labels : Labels) (nodeTaints : List Taint) (tags : List Tag)
    (h : ∀ t ∈ tags, taintOf t = none) :
    ∃ r1 r2, onAddPass labels nodeTaints tags = some r1 ∧
      onAddPass r1.labels r1.taints tags = some r2 ∧
      r2.labels = r1.labels ∧ r2.taints = r1.taints ∧ r2.changed = false := by
  have hT := filterMap_taintOf_eq_nil tags h
  refine ⟨_, _, onAddPass_eq labels nodeTaints tags, onAddPass_eq _ _ tags, ?_, ?_, ?_⟩
  · exact applyWrites_idem labels _
  · simp [hT]
  · simp [hT, applyWrites_idem]

/-- C5, on a pass with one label tag and one tag that is no taint tag: the
second run returns the labels of the first and `changed = false`. -/
theorem onAddPass_idempotent_witness :
    (∀ t ∈ [(⟨"kubernetes/aws-labeler/label/type".toList, "web".toList⟩ : Tag),
            ⟨"kubernetes/aws-labeler/tail/type".toList, "ci:NoExecute".toList⟩],
        taintOf t = none) ∧
    ∃ r1 r2,
      onAddPass [] []
        [⟨"kubernetes/aws-labeler/label/type".toList, "web".toList⟩,
         ⟨"kubernetes/aws-labeler/tail/type".toList, "ci:NoExecute".toList⟩] = some r1 ∧
      onAddPass r1.labels r1.taints
        [⟨"kubernetes/aws-labeler/label/type".toList, "web".toList⟩,
         ⟨"kubernetes/aws-labeler/tail/type".toList, "ci:NoExecute".toList⟩] = some r2 ∧
      r2.labels = r1.labels ∧ r2.taints = r1.taints ∧ r2.changed = false :=
  ⟨by decide,
   onAddPass_idempotent [] []
     [⟨"kubernetes/aws-labeler/label/type".toList, "web".toList⟩,
      ⟨"kubernetes/aws-labeler/tail/type".toList, "ci:NoExecute".toList⟩] (by decide)⟩

/-- C6: the changed flag of line 166 compares lengths only.  It is true exactly
when some accepted label tag targets an output key that is absent from the
labels of the snapshot, or at least one tag is accepted as a taint.  A pass
whose label tags all target keys already present, and that accepts no taint,
reports `changed = false`; so does the pass that overwrites the value `old` of
the present key `awslabeler.com/type` by `web`, although its labels differ from
those of the snapshot. -/
theorem changed_iff_new_key_or_taint :
    (∀ (labels : Labels) (nodeTaints : List Taint) (tags : List Tag),
      ∃ r, onAddPass labels nodeTaints tags = some r ∧
        (r.changed = true ↔
          (∃ t ∈ tags, isLabelTag t = true ∧ outKey t ∉ mapKeys labels) ∨
          (∃ t ∈ tags, (taintOf t).isSome = true)) ∧
        (((∀ t ∈ tags, isLabelTag t = true → outKey t ∈ mapKeys labels) ∧
          (∀ t ∈ tags, taintOf t = none)) → r.changed = false)) ∧
    (onAddPass [("awslabeler.com/type".toList, "old".toList)] []
        [⟨"kubernetes/aws-labeler/label/type".toList, "web".toList⟩] =
      some
        { labels := [("awslabeler.com/type".toList, "web".toList)]
          taints := []
          changed := false } ∧
     [("awslabeler.com/type".toList, "web".toList)] ≠
       [("awslabeler.com/type".toList, "old".toList)]) := by
  refine ⟨fun labels nodeTaints tags => ?_, by decide⟩
  have key : ∀ (b : Bool),
      b = (decide (mapLen labels ≠ mapLen (applyWrites labels (tags.filterMap labelWrite))) ||
          decide (nodeTaints.length ≠ (nodeTaints ++ tags.filterMap taintOf).length)) →
      (b = true ↔
        (∃ t ∈ tags, isLabelTag t = true ∧ outKey t ∉ mapKeys labels) ∨
        (∃ t ∈ tags, (taintOf t).isSome = true)) := by
    intro b hb
    have hlen := mapLen_applyWrites_eq_iff labels (tags.filterMap labelWrite)
    have hL : mapLen labels ≠ mapLen (applyWrites labels (tags.filterMap labelWrite)) ↔
        ∃ t ∈ tags, isLabelTag t = true ∧ outKey t ∉ mapKeys labels := by
      rw [ne_comm, Ne, hlen]
      constructor
      · intro hn
        by_contra hcon
        apply hn
        intro w hw
        obtain ⟨t, ht, hLt, rfl⟩ := (mem_filterMap_labelWrite tags w).1 hw
        by_contra hk
        exact hcon ⟨t, ht, hLt, hk⟩
      · rintro ⟨t, ht, hLt, hk⟩ hall
        exact hk (hall _ ((mem_filterMap_labelWrite tags _).2 ⟨t, ht, hLt, rfl⟩))
    have hTn : nodeTaints.length ≠ (nodeTaints ++ tags.filterMap taintOf).length ↔
        ∃ t ∈ tags, (taintOf t).isSome = true := by
      rw [List.length_append]
      constructor
      · intro hne
        have hpos : tags.filterMap taintOf ≠ [] := by
          intro hnil
          rw [hnil] at hne
          simp at hne
        obtain ⟨x, hx⟩ := List.exists_mem_of_ne_nil _ hpos
        obtain ⟨t, ht, htx⟩ := List.mem_filterMap.1 hx
        exact ⟨t, ht, by rw [htx]; rfl⟩
      · rintro ⟨t, ht, hs⟩
        obtain ⟨x, hx⟩ := Option.isSome_iff_exists.1 hs
        have hmem : x ∈ tags.filterMap taintOf := List.mem_filterMap.2 ⟨t, ht, hx⟩
        have hpos : 0 < (tags.filterMap taintOf).length := List.length_pos_of_mem hmem
        omega
    rw [hb, Bool.or_eq_true, decide_eq_true_eq, decide_eq_true_eq, hL, hTn]
  refine ⟨_, onAddPass_eq labels nodeTaints tags, key _ rfl, ?_⟩
  rintro ⟨h1, h2⟩
  have hk := key _ rfl
  rw [← Bool.not_eq_true, hk]
  rintro (⟨t, ht, hLt, hn⟩ | ⟨t, ht, hs⟩)
  · exact hn (h1 t ht hLt)
  · rw [h2 t ht] at hs
    exact absurd hs (by simp)

/-- C7: the loop only adds.  The final taint list is the taint list of the
snapshot followed by the taints of the accepted taint tags, one for each, in tag
order and without removing duplicates; every label key of the snapshot is still
a key at the end, and it keeps its snapshot value unless an accepted label tag
targets that key. -/
theorem tagLoop_append_only (st : LoopState) (tags : List Tag) :
    ∃ r, tagLoop st tags = some r ∧
      r.taints = st.taints ++ tags.filterMap taintOf ∧
      ∀ k ∈ mapKeys st.ll,
        k ∈ mapKeys r.ll ∧
        ((∀ t ∈ tags, isLabelTag t = true → outKey t ≠ k) → mapGet r.ll k = mapGet st.ll k) := by
  refine ⟨_, tagLoop_eq st tags, rfl, ?_⟩
  intro k hk
  refine ⟨(mem_mapKeys_applyWrites _ _ _).2 (Or.inl hk), ?_⟩
  intro hno
  apply mapGet_applyWrites_of_not_mem
  intro hmem
  obtain ⟨w, hw, hwk⟩ := List.mem_map.1 hmem
  obtain ⟨t, ht, hLt, rfl⟩ := (mem_filterMap_labelWrite tags w).1 hw
  exact hno t ht hLt hwk

theorem split_of_splitEC2Tag (k : Str) (res : List Str) (h : splitEC2Tag k = (res, none)) :
    split '/' k = res ∧ res.length = 4 := by
  by_cases hl : (split '/' k).length = 4
  · rw [splitEC2Tag_of_length k hl] at h
    have := (Prod.mk.inj h).1
    exact ⟨this, this ▸ hl⟩
  · rw [splitEC2Tag_of_length_ne k hl] at h
    exact absurd (Prod.mk.inj h).2 (by simp)

/-- C9, as stated, fails in both directions.  Segment 2 of the managed, well
formed key `kubernetes/aws-labeler/nolabel/type` contains `label`, yet the loop
body writes no label for it; segment 2 of the managed, well formed key
`x/kubernetes/aws-labeler/taint` is `aws-labeler`, which does not contain `taint`,
yet the loop body appends a taint for it. -/
theorem kind_not_by_segment_two :
    (isManagable "kubernetes/aws-labeler/nolabel/type".toList = true ∧
     splitEC2Tag "kubernetes/aws-labeler/nolabel/type".toList =
       (["kubernetes".toList, "aws-labeler".toList, "nolabel".toList, "type".toList], none) ∧
     contains "nolabel".toList "label".toList = true ∧
     tagStep ⟨[], []⟩ ⟨"kubernetes/aws-labeler/nolabel/type".toList, "web".toList⟩ =
       some ⟨[], []⟩) ∧
    (isManagable "x/kubernetes/aws-labeler/taint".toList = true ∧
     splitEC2Tag "x/kubernetes/aws-labeler/taint".toList =
       (["x".toList, "kubernetes".toList, "aws-labeler".toList, "taint".toList], none) ∧
     contains "aws-labeler".toList "taint".toList = false ∧
     tagStep ⟨[], []⟩ ⟨"x/kubernetes/aws-labeler/taint".toList, "ci:NoExecute".toList⟩ =
       some ⟨[], [⟨"awslabeler.com/taint".toList, "ci".toList, TaintEffect.NoExecute⟩]⟩) := by
  decide

/-- C9, amended: the directive kind is read from the whole key, not from segment
2.  For a managed key that `splitEC2Tag` accepts, with segments `s0` to `s3`, the
loop body writes the label (output key from `s3`, value of the tag) exactly when
the key contains `kubernetes/aws-labeler/label`, that is when `s0` ends with
`kubernetes`, `s1` is `aws-labeler` and `s2` starts with `label`, or `s1` ends
with `kubernetes`, `s2` is `aws-labeler` and `s3` starts with `label`; it calls
`getTaintFromAWSTag` and appends the taint it returns without error exactly when
the same holds with `taint` for `label`. -/
theorem kind_by_key_pattern (k s0 s1 s2 s3 : Str) (st : LoopState) (v : Str)
    (hm : isManagable k = true) (hs : splitEC2Tag k = ([s0, s1, s2, s3], none)) :
    (contains k AWS_LABEL_K8S_LABEL = true ↔
      ("kubernetes".toList <:+ s0 ∧ s1 = "aws-labeler".toList ∧ "label".toList <+: s2) ∨
      ("kubernetes".toList <:+ s1 ∧ s2 = "aws-labeler".toList ∧ "label".toList <+: s3)) ∧
    (contains k AWS_LABEL_K8S_TAINT = true ↔
      ("kubernetes".toList <:+ s0 ∧ s1 = "aws-labeler".toList ∧ "taint".toList <+: s2) ∨
      ("kubernetes".toList <:+ s1 ∧ s2 = "aws-labeler".toList ∧ "taint".toList <+: s3)) ∧
    ∃ r, tagStep st ⟨k, v⟩ = some r ∧
      r.ll = (if contains k AWS_LABEL_K8S_LABEL = true
              then mapSet st.ll ("awslabeler.com/".toList ++ s3) v else st.ll) ∧
      r.taints = (if contains k AWS_LABEL_K8S_TAINT = true
              then st.taints ++
                (match getTaintFromAWSTag [s0, s1, s2, s3] v with
                  | some (taint, none) => [taint]
                  | _ => [])
              else st.taints) := by
  obtain ⟨hsp, _⟩ := split_of_splitEC2Tag k _ hs
  refine ⟨contains_label_four k s0 s1 s2 s3 hsp, contains_taint_four k s0 s1 s2 s3 hsp, ?_⟩
  have hacc : keyAccepted k = true := by
    simp [keyAccepted, hm, hs]
  have hp : K8S_LABEL_PREFIX ++ "/".toList = "awslabeler.com/".toList := by decide
  refine ⟨_, tagStep_eq st ⟨k, v⟩, ?_, ?_⟩
  · by_cases hL : contains k AWS_LABEL_K8S_LABEL = true
    · have hk : outKey ⟨k, v⟩ = "awslabeler.com/".toList ++ s3 := by
        simp only [outKey, hsp]
        rw [hp]
        rfl
      simp only [labelWrite, isLabelTag, hacc, hL, Bool.and_self, if_true, Option.toList,
        applyWrites, List.foldl, hk]
    · simp [labelWrite, isLabelTag, hacc, hL, applyWrites]
  · by_cases hT : contains k AWS_LABEL_K8S_TAINT = true
    · simp only [taintOf, isTaintTag, hacc, hT, Bool.and_self, if_true, hs]
      rcases getTaintFromAWSTag [s0, s1, s2, s3] v with _ | ⟨taint, _ | e⟩ <;> simp
    · simp [taintOf, isTaintTag, hacc, hT]

/-- C9, amended, on the key `x/kubernetes/aws-labeler/taint`: the taint pattern
sits on segments 1 to 3 and the taint is appended. -/
theorem kind_by_key_pattern_witness :
    isManagable "x/kubernetes/aws-labeler/taint".toList = true ∧
    splitEC2Tag "x/kubernetes/aws-labeler/taint".toList =
      (["x".toList, "kubernetes".toList, "aws-labeler".toList, "taint".toList], none) ∧
    ∃ r, tagStep ⟨[], []⟩ ⟨"x/kubernetes/aws-labeler/taint".toList, "ci:NoExecute".toList⟩ =
        some r ∧
      r.ll = (if contains "x/kubernetes/aws-labeler/taint".toList AWS_LABEL_K8S_LABEL = true
              then mapSet [] ("awslabeler.com/".toList ++ "taint".toList) "ci:NoExecute".toList
              else []) ∧
      r.taints = (if contains "x/kubernetes/aws-labeler/taint".toList AWS_LABEL_K8S_TAINT = true
              then [] ++
                (match getTaintFromAWSTag
                    ["x".toList, "kubernetes".toList, "aws-labeler".toList, "taint".toList]
                    "ci:NoExecute".toList with
                  | some (taint, none) => [taint]
                  | _ => [])
              else []) :=
  ⟨by decide, by decide,
   (kind_by_key_pattern "x/kubernetes/aws-labeler/taint".toList
      "x".toList "kubernetes".toList "aws-labeler".toList "taint".toList
      ⟨[], []⟩ "ci:NoExecute".toList (by decide) (by decide)).2.2⟩

theorem tagStepPriority_eq (st : LoopState) (t : Tag) :
    tagStepPriority st t = tagStep st t := by
  by_cases hm : isManagable t.key = false
  · simp [tagStep, tagStepPriority, hm]
  · by_cases hl : (split '/' t.key).length = 4
    · have hsp := splitEC2Tag_of_length t.key hl
      have hx := not_label_and_taint t.key hl
      unfold tagStep tagStepPriority
      rw [if_neg hm, if_neg hm, hsp]
      cases hL : contains t.key AWS_LABEL_K8S_LABEL
      · cases hT : contains t.key AWS_LABEL_K8S_TAINT
        · simp
        · simp only [Bool.false_eq_true, if_false, if_true, Option.some_bind]
      · have hT : contains t.key AWS_LABEL_K8S_TAINT = false := by
          cases hT : contains t.key AWS_LABEL_K8S_TAINT
          · rfl
          · exact absurd ⟨hL, hT⟩ hx
        simp only [hT, if_true, Bool.false_eq_true, if_false]
        cases goIndex (split '/' t.key) 3 <;> rfl
    · have hsp := splitEC2Tag_of_length_ne t.key hl
      unfold tagStep tagStepPriority
      rw [if_neg hm, if_neg hm, hsp]

/-- C10: a single tag never yields both a label and a taint.  No key that
`splitEC2Tag` accepts contains both `kubernetes/aws-labeler/label` and
`kubernetes/aws-labeler/taint`; the loop body leaves the labels or the taints
as they were; and the loop with its two independent checks returns, for every
state and every tag sequence, what the loop with first-match priority (label
first, taint only when the label check fails) returns. -/
theorem label_taint_exclusive :
    (∀ k : Str, (splitEC2Tag k).2 = none →
      ¬ (contains k AWS_LABEL_K8S_LABEL = true ∧ contains k AWS_LABEL_K8S_TAINT = true)) ∧
    (∀ (st : LoopState) (t : Tag),
      ∃ r, tagStep st t = some r ∧ (r.ll = st.ll ∨ r.taints = st.taints)) ∧
    (∀ (st : LoopState) (tags : List Tag),
      ∃ r, tagLoop st tags = some r ∧ tagLoopPriority st tags = some r) := by
  refine ⟨?_, ?_, ?_⟩
  · intro k hk
    have hl : (split '/' k).length = 4 := by
      have := splitEC2Tag_snd_isNone k
      rw [hk] at this
      simpa using this
    exact not_label_and_taint k hl
  · intro st t
    refine ⟨_, tagStep_eq st t, ?_⟩
    by_cases hT : isTaintTag t = true
    · left
      simp [labelWrite, not_isLabelTag_of_isTaintTag t hT, applyWrites]
    · right
      simp [taintOf, hT]
  · intro st tags
    refine ⟨_, tagLoop_eq st tags, ?_⟩
    rw [← tagLoop_eq st tags]
    induction tags generalizing st with
    | nil => rfl
    | cons t ts ih =>
      rw [tagLoop, tagLoopPriority, tagStepPriority_eq, tagStep_eq, Option.some_bind,
        Option.some_bind]
      exact ih _

end Labeler
